import Mathlib

/-!
Shallow embedding of the spaGO computation-graph engine
(`pkg/ml/ag/graph.go`) and a verification of the spec's claims about it.

The value type of matrices (`mat.Matrix`) is kept abstract as a type
parameter `V`; numeric kernels (`fn.Function`) are modelled by the one
capability the graph code uses at construction time, their eager
`Forward()` result.  Go slice indexing panics out of range; the embedding
returns `Option` and yields `none` exactly where the Go code would panic.
-/

namespace Spago

/-- Model of `fn.Function` as used by `Graph.NewOperator`: the only
capability invoked at construction time is `Forward()`, which is pure, so
a kernel is represented by its forward result. -/
structure Fn (V : Type) where
  forward : V
deriving DecidableEq

/-- Model of the `GradValue` capability wrapped by `NewWrap` /
`NewWrapNoGrad`: an externally owned value together with its
requires-gradient flag (the wrapper delegates `RequiresGrad()` to it). -/
structure GradValue (V : Type) where
  value : V
  requiresGrad : Bool
deriving DecidableEq

/-- The node payloads built by the constructors in `graph.go`:
`Variable{id, value, requiresGrad}` (with `grad = nil`, `hasGrad = false`),
`Operator{id, value, requiresGrad}` holding its kernel (whose operand
references we record as the identity list passed to `NewOperator`), and
`Wrapper{GradValue, id, wrapGrad}`. -/
inductive Node (V : Type) where
  | Variable (id : Nat) (value : V) (requiresGrad : Bool)
  | Operator (id : Nat) (value : V) (requiresGrad : Bool) (operands : List Nat)
  | Wrapper (id : Nat) (value : GradValue V) (wrapGrad : Bool)
deriving DecidableEq

/-- The `Id()` accessor of a node. -/
def Node.Id {V : Type} : Node V → Nat
  | .Variable id _ _ => id
  | .Operator id _ _ _ => id
  | .Wrapper id _ _ => id

/-- The `RequiresGrad()` accessor of a node; a wrapper delegates to the
wrapped `GradValue`. -/
def Node.RequiresGrad {V : Type} : Node V → Bool
  | .Variable _ _ rg => rg
  | .Operator _ _ rg _ => rg
  | .Wrapper _ v _ => v.requiresGrad

/-- Whether a node payload is an operator. -/
def Node.isOperator {V : Type} : Node V → Bool
  | .Operator _ _ _ _ => true
  | _ => false

/-- The operand identity list of a node: the operands captured by an
operator's kernel, empty for leaves. -/
def Node.operandsOf {V : Type} : Node V → List Nat
  | .Operator _ _ _ ops => ops
  | _ => []

/-- `nodeInfo` from `graph.go`: payload, current depth, and the ids of all
descendants including the node itself. -/
structure nodeInfo (V : Type) where
  node : Node V
  depth : Nat
  descendants : List Nat
deriving DecidableEq

/-- `Graph` from `graph.go`.  `maxId` is the id of the next node to insert
(equals `len(nodes)` on every reachable graph); `maxDepth` the maximum
depth reached by a node; `nodes` the arena indexed by node id.  The mutex
serializes the Go constructors; the embedding is the sequential semantics
of the serialized critical sections. -/
structure Graph (V : Type) where
  maxId : Nat
  maxDepth : Nat
  nodes : List (nodeInfo V)
deriving DecidableEq

/-- `NewGraph` returns a new initialized graph. -/
def NewGraph (V : Type) : Graph V :=
  { maxId := 0, maxDepth := 0, nodes := [] }

/-- `Reset` restores the zero state of the graph. -/
def Reset {V : Type} (_g : Graph V) : Graph V :=
  { maxId := 0, maxDepth := 0, nodes := [] }

/-- `newId` returns the current `maxId` and increments it; in the
sequential semantics the fresh id is the old `maxId`. -/
def newId {V : Type} (g : Graph V) : Nat := g.maxId

/-- `NewVariable` appends a fresh variable record with depth `0` and
descendant set `{newId}`. -/
def NewVariable {V : Type} (g : Graph V) (value : V) (requiresGrad : Bool) :
    Graph V :=
  let id := newId g
  { maxId := g.maxId + 1,
    maxDepth := g.maxDepth,
    nodes := g.nodes ++ [{ node := Node.Variable id value requiresGrad,
                           depth := 0, descendants := [id] }] }

/-- `NewScalar` creates a variable node that doesn't require gradients. -/
def NewScalar {V : Type} (g : Graph V) (value : V) : Graph V :=
  NewVariable g value false

/-- `NewWrap` wraps an external `GradValue` with `wrapGrad = true`. -/
def NewWrap {V : Type} (g : Graph V) (value : GradValue V) : Graph V :=
  let id := newId g
  { maxId := g.maxId + 1,
    maxDepth := g.maxDepth,
    nodes := g.nodes ++ [{ node := Node.Wrapper id value true,
                           depth := 0, descendants := [id] }] }

/-- `NewWrapNoGrad` wraps an external `GradValue` with `wrapGrad = false`. -/
def NewWrapNoGrad {V : Type} (g : Graph V) (value : GradValue V) : Graph V :=
  let id := newId g
  { maxId := g.maxId + 1,
    maxDepth := g.maxDepth,
    nodes := g.nodes ++ [{ node := Node.Wrapper id value false,
                           depth := 0, descendants := [id] }] }

/-- The helper `maxDepth(a, b)` from `graph.go`. -/
def maxDepth (a b : Nat) : Nat := if a > b then a else b

/-- `requireGrad(ns)`: true iff some operand requires gradient.  The Go
function reads the flag off the passed node objects; the embedding reads
it from the arena record the object corresponds to, hence the `Option`
lookup (the composite `NewOperator` fails on exactly the same inputs as
the Go code, which panics in `sumDescendants` on any out-of-range
operand). -/
def requireGrad {V : Type} (g : Graph V) (ns : List Nat) : Option Bool :=
  ns.foldlM (fun acc n => (g.nodes[n]?).map (fun ni => acc || ni.node.RequiresGrad))
    false

/-- `sumDescendants(ns)` sums the descendant-list lengths of the operands;
it is the first place the Go code indexes `g.nodes[n.Id()]` and hence the
first place an out-of-range operand panics. -/
def sumDescendants {V : Type} (g : Graph V) (ns : List Nat) : Option Nat :=
  ns.foldlM (fun sum n => (g.nodes[n]?).map (fun ni => sum + ni.descendants.length))
    0

/-- The mutable state of `NewOperator`'s marking loop: the arena being
updated in place, the running `maxDepth`, the `mark` slice, and the
accumulated de-duplicated descendant list of the new operator. -/
structure LoopState (V : Type) where
  nodes : List (nodeInfo V)
  maxDepth : Nat
  mark : List Bool
  descendants : List Nat
deriving DecidableEq

/-- One iteration of the inner loop of `NewOperator`: if `descendantId` is
unmarked, mark it, increment its depth, update the running `maxDepth` and
append it to the new descendant list. -/
def visitDescendant {V : Type} (st : LoopState V) (descendantId : Nat) :
    Option (LoopState V) := do
  let m ← st.mark[descendantId]?
  if m then
    pure st
  else do
    let ni ← st.nodes[descendantId]?
    pure { nodes := st.nodes.set descendantId { ni with depth := ni.depth + 1 },
           maxDepth := maxDepth (ni.depth + 1) st.maxDepth,
           mark := st.mark.set descendantId true,
           descendants := st.descendants ++ [descendantId] }

/-- One iteration of the outer loop of `NewOperator`: walk the descendant
list of operand `o`. -/
def visitOperand {V : Type} (st : LoopState V) (o : Nat) : Option (LoopState V) := do
  let ni ← st.nodes[o]?
  ni.descendants.foldlM visitDescendant st

/-- `NewOperator` creates a new operator along with its forward pass:
eagerly evaluate the kernel, compute `requiresGrad` as the OR of the
operand flags, then mark-and-increment the de-duplicated union of the
operands' descendant sets and append the new record (depth `0`,
descendants = that union plus the new id).  `none` models the Go panic on
an operand id not yet in the arena. -/
def NewOperator {V : Type} (g : Graph V) (f : Fn V) (operands : List Nat) :
    Option (Graph V) := do
  let value := f.forward
  let id := newId g
  let rGrad ← requireGrad g operands
  let _cap ← sumDescendants g operands
  let st ← operands.foldlM visitOperand
    { nodes := g.nodes, maxDepth := g.maxDepth,
      mark := List.replicate g.nodes.length false, descendants := [] }
  pure { maxId := g.maxId + 1,
         maxDepth := st.maxDepth,
         nodes := st.nodes ++ [{ node := Node.Operator id value rGrad operands,
                                 depth := 0,
                                 descendants := st.descendants ++ [id] }] }

/-- One step of `groupNodesByDepth`: append the node to the bucket of its
depth (`none` models the Go panic when `depth` exceeds the bucket count). -/
def groupByStep {V : Type} (out : List (List (Node V))) (ni : nodeInfo V) :
    Option (List (List (Node V))) := do
  let bucket ← out[ni.depth]?
  pure (out.set ni.depth (bucket ++ [ni.node]))

/-- `groupNodesByDepth` returns the nodes of the graph grouped by depth,
`maxDepth + 1` buckets, nodes appended in arena order. -/
def groupNodesByDepth {V : Type} (g : Graph V) : Option (List (List (Node V))) :=
  g.nodes.foldlM groupByStep (List.replicate (g.maxDepth + 1) [])

/-- A constructor call on the graph. -/
inductive Instr (V : Type) where
  | NewVariable (value : V) (requiresGrad : Bool)
  | NewScalar (value : V)
  | NewOperator (f : Fn V) (operands : List Nat)
  | NewWrap (value : GradValue V)
  | NewWrapNoGrad (value : GradValue V)
deriving DecidableEq

/-- Execute one constructor call. -/
def step {V : Type} (g : Graph V) : Instr V → Option (Graph V)
  | .NewVariable v rg => some (NewVariable g v rg)
  | .NewScalar v => some (NewScalar g v)
  | .NewOperator f ops => NewOperator g f ops
  | .NewWrap v => some (NewWrap g v)
  | .NewWrapNoGrad v => some (NewWrapNoGrad g v)

/-- Execute a sequence of constructor calls. -/
def run {V : Type} (g : Graph V) (is : List (Instr V)) : Option (Graph V) :=
  is.foldlM step g

/-- A graph reachable from `NewGraph` by some sequence of constructor
calls. -/
def Reachable {V : Type} (g : Graph V) : Prop :=
  ∃ is : List (Instr V), run (NewGraph V) is = some g

/-- The depth field of the record at index `i` (0 when out of range). -/
def depthAt {V : Type} (g : Graph V) (i : Nat) : Nat :=
  ((g.nodes[i]?).map nodeInfo.depth).getD 0

/-- The descendant list of the record at index `i` (empty out of range). -/
def descOf {V : Type} (g : Graph V) (i : Nat) : List Nat :=
  ((g.nodes[i]?).map nodeInfo.descendants).getD []

/-- The operand list of the record at index `i` (empty out of range). -/
def opsAt {V : Type} (g : Graph V) (i : Nat) : List Nat :=
  ((g.nodes[i]?).map (fun ni => ni.node.operandsOf)).getD []

/-- Whether the record at index `i` is an operator. -/
def isOperatorAt {V : Type} (g : Graph V) (i : Nat) : Bool :=
  match g.nodes[i]? with
  | some ni => match ni.node with
    | .Operator _ _ _ _ => true
    | _ => false
  | none => false

/-- The requires-gradient flag of the record at index `i`. -/
def requiresGradAt {V : Type} (g : Graph V) (i : Nat) : Bool :=
  match g.nodes[i]? with
  | some ni => ni.node.RequiresGrad
  | none => false

/-- The de-duplicated union of the descendant sets of a list of operands:
the set of identities whose depth one `NewOperator` call increments. -/
def unionDescendants {V : Type} (g : Graph V) (ops : List Nat) : Finset Nat :=
  (ops.flatMap (fun o => descOf g o)).toFinset

/-- The transitive dependency closure of node `n` over the operand edges,
computed with explicit fuel (on reachable graphs operand ids strictly
decrease, so fuel `n` suffices). -/
def depClosureF {V : Type} (g : Graph V) : Nat → Nat → Finset Nat
  | 0, n => {n}
  | fuel + 1, n =>
    insert n (((opsAt g n).map (depClosureF g fuel)).foldr (· ∪ ·) ∅)

/-- The transitive dependency closure of node `n`: `n` itself plus the
closures of its operands. -/
def depClosure {V : Type} (g : Graph V) (n : Nat) : Finset Nat :=
  depClosureF g n n

/-- The distinct operators built so far that consume `n` directly or
transitively: those operators one of whose operands has `n` in its
transitive dependency closure. -/
def consumersSpec {V : Type} (g : Graph V) (n : Nat) : Finset Nat :=
  (Finset.range g.nodes.length).filter
    (fun j => isOperatorAt g j = true ∧ ∃ o ∈ opsAt g j, n ∈ depClosure g o)

/-- The operators whose recorded descendant set contains `n` (besides `n`
itself); the bookkeeping counterpart of `consumersSpec`. -/
def consumers {V : Type} (g : Graph V) (n : Nat) : Finset Nat :=
  (Finset.range g.nodes.length).filter
    (fun j => isOperatorAt g j = true ∧ j ≠ n ∧ n ∈ descOf g j)

/-- Modelled from the spec: the gradient buffers of the nodes (the
backward scheduler of §4.3 is not part of the sources at hand, only its
callers and `groupNodesByDepth` are).  A buffer is `none` until the first
write; gradients are modelled as integers (one linear component). -/
def Grads : Type := Nat → Option Int

/-- Modelled from the spec: the operation that "externally pushes a
gradient contribution" into a node's buffer (§6); it accumulates: the
contribution is summed onto the buffer, never overwritten, and the buffer
becomes non-empty. -/
def PropagateGrad (grads : Grads) (n : Nat) (gd : Int) : Grads :=
  fun i => if i = n then some ((grads n).getD 0 + gd) else grads i

/-- Modelled from the spec: processing one node during the backward pass
(§4.3 step 3-4).  For an operator whose `requiresGrad` is set and whose
buffer is non-empty, the kernel's `Backward(currentGradient)` accumulates
a contribution into each operand's buffer; the kernel is linear, modelled
by a coefficient per (operator id, operand position).  All other nodes are
skipped. -/
def backwardNode {V : Type} (coeff : Nat → Nat → Int) (node : Node V)
    (grads : Grads) : Grads :=
  match node with
  | .Operator id _ rg ops =>
    if rg then
      match grads id with
      | some γ => ops.enum.foldl
          (fun gs ko => PropagateGrad gs ko.2 (coeff id ko.1 * γ)) grads
      | none => grads
    else grads
  | _ => grads

/-- Modelled from the spec: the bucket sweep of the backward pass (§4.3
steps 2-3): partition the nodes by depth with the source's
`groupNodesByDepth` and process the buckets in ascending depth order,
nodes within a bucket in creation order. -/
def BackwardFrom {V : Type} (g : Graph V) (coeff : Nat → Nat → Int)
    (grads : Grads) : Grads :=
  ((groupNodesByDepth g).getD []).foldl
    (fun gs bucket => bucket.foldl (fun gs n => backwardNode coeff n gs) gs)
    grads

/-- Modelled from the spec: `backward(outputNode, seedGradient)` (§4.3
step 1 then 2-5): push the seed into the output node's buffer, then sweep
the depth buckets. -/
def Backward {V : Type} (g : Graph V) (coeff : Nat → Nat → Int)
    (grads : Grads) (out : Nat) (seed : Int) : Grads :=
  BackwardFrom g coeff (PropagateGrad grads out seed)

/-- The diamond scenario of the spec: `a`, `b` variables, `c = f(a, b)`,
`d = g(a, c)`. -/
def diamondInstrs : List (Instr Nat) :=
  [Instr.NewVariable 5 true, Instr.NewVariable 7 false,
   Instr.NewOperator ⟨3⟩ [0, 1], Instr.NewOperator ⟨9⟩ [0, 2]]

/-- The graph built by the diamond scenario. -/
def diamondGraph : Graph Nat :=
  (run (NewGraph Nat) diamondInstrs).getD (NewGraph Nat)

/-- A three-node chain `x`, `y = f(x)`, `z = g(y)`. -/
def chainInstrs : List (Instr Nat) :=
  [Instr.NewVariable 0 true, Instr.NewOperator ⟨0⟩ [0], Instr.NewOperator ⟨0⟩ [1]]

/-- The graph built by the chain scenario. -/
def chainGraph : Graph Nat :=
  (run (NewGraph Nat) chainInstrs).getD (NewGraph Nat)

/-- All gradient buffers empty. -/
def zeroGrads : Grads := fun _ => none

/-- Kernels whose backward multiplies the output gradient by one for every
operand. -/
def unitCoeff : Nat → Nat → Int := fun _ _ => 1

/-- The invariant of every reachable graph. -/
structure Inv {V : Type} (g : Graph V) : Prop where
  maxId_eq : g.maxId = g.nodes.length
  id_eq : ∀ (i : Nat) (ni : nodeInfo V), g.nodes[i]? = some ni → ni.node.Id = i
  self_mem : ∀ (i : Nat) (ni : nodeInfo V), g.nodes[i]? = some ni → i ∈ ni.descendants
  desc_nodup : ∀ (i : Nat) (ni : nodeInfo V), g.nodes[i]? = some ni → ni.descendants.Nodup
  desc_le : ∀ (i : Nat) (ni : nodeInfo V), g.nodes[i]? = some ni → ∀ j ∈ ni.descendants, j ≤ i
  desc_closed : ∀ (i : Nat) (ni : nodeInfo V), g.nodes[i]? = some ni → ∀ j ∈ ni.descendants,
    ∀ k ∈ descOf g j, k ∈ ni.descendants
  ops_lt : ∀ (i : Nat) (ni : nodeInfo V), g.nodes[i]? = some ni → ∀ o ∈ ni.node.operandsOf, o < i
  desc_sets : ∀ (i : Nat) (ni : nodeInfo V), g.nodes[i]? = some ni →
    ni.descendants.toFinset = insert i (unionDescendants g ni.node.operandsOf)
  depth_le : ∀ (i : Nat) (ni : nodeInfo V), g.nodes[i]? = some ni → ni.depth ≤ g.maxDepth
  maxDepth_attained : g.maxDepth = 0 ∨
    ∃ (i : Nat) (ni : nodeInfo V), g.nodes[i]? = some ni ∧ ni.depth = g.maxDepth
  depth_count : ∀ (i : Nat) (ni : nodeInfo V), g.nodes[i]? = some ni → ni.depth = (consumers g i).card

/-- Relation characterizing the intermediate states of `NewOperator`'s
marking loop over the initial arena `ns0` and initial `maxDepth` `d0`:
`M` is the set of identities visited so far. -/
structure LoopSim {V : Type} (ns0 : List (nodeInfo V)) (d0 : Nat)
    (M : Finset Nat) (st : LoopState V) : Prop where
  len_nodes : st.nodes.length = ns0.length
  len_mark : st.mark.length = ns0.length
  nodes_at : ∀ (i : Nat) (ni0 : nodeInfo V), ns0[i]? = some ni0 →
    st.nodes[i]? =
      some ⟨ni0.node, ni0.depth + (if i ∈ M then 1 else 0), ni0.descendants⟩
  mark_at : ∀ i, i < ns0.length → st.mark[i]? = some (decide (i ∈ M))
  desc_nodup : st.descendants.Nodup
  desc_set : st.descendants.toFinset = M
  sub : ∀ i ∈ M, i < ns0.length
  maxd : st.maxDepth =
    max d0 (M.sup (fun i => (((ns0[i]?).map nodeInfo.depth).getD 0) + 1))

/-- Frame relation between two arenas: every record of the first persists
at its index in the second with the same payload and descendant list and a
depth that has not decreased. -/
def FrameL {V : Type} (xs ys : List (nodeInfo V)) : Prop :=
  ∀ (i : Nat) (ni : nodeInfo V), xs[i]? = some ni →
    ∃ ni' : nodeInfo V, ys[i]? = some ni' ∧ ni'.node = ni.node ∧
      ni'.descendants = ni.descendants ∧ ni.depth ≤ ni'.depth

theorem maxDepth_eq_max (a b : Nat) : maxDepth a b = max a b := by
  simp only [maxDepth]
  split <;> omega

theorem lt_of_getElem?_eq_some {α : Type} {l : List α} {i : Nat} {a : α}
    (h : l[i]? = some a) : i < l.length :=
  (List.getElem?_eq_some.mp h).1

theorem getElem?_append_cases {α : Type} {l : List α} {r : α} {i : Nat} {x : α}
    (h : (l ++ [r])[i]? = some x) :
    (i < l.length ∧ l[i]? = some x) ∨ (i = l.length ∧ x = r) := by
  rcases Nat.lt_trichotomy i l.length with hlt | heq | hgt
  · exact Or.inl ⟨hlt, by rwa [List.getElem?_append_left hlt] at h⟩
  · subst heq
    rw [List.getElem?_concat_length] at h
    exact Or.inr ⟨rfl, (Option.some.injEq _ _).mp h.symm⟩
  · exfalso
    have : (l ++ [r]).length ≤ i := by simp; omega
    rw [List.getElem?_eq_none this] at h
    exact Option.noConfusion h

theorem descOf_eq {V : Type} {g : Graph V} {i : Nat} {ni : nodeInfo V}
    (h : g.nodes[i]? = some ni) : descOf g i = ni.descendants := by
  simp [descOf, h]

theorem depthAt_eq {V : Type} {g : Graph V} {i : Nat} {ni : nodeInfo V}
    (h : g.nodes[i]? = some ni) : depthAt g i = ni.depth := by
  simp [depthAt, h]

theorem opsAt_eq {V : Type} {g : Graph V} {i : Nat} {ni : nodeInfo V}
    (h : g.nodes[i]? = some ni) : opsAt g i = ni.node.operandsOf := by
  simp [opsAt, h]

theorem requiresGradAt_eq {V : Type} {g : Graph V} {i : Nat} {ni : nodeInfo V}
    (h : g.nodes[i]? = some ni) : requiresGradAt g i = ni.node.RequiresGrad := by
  simp [requiresGradAt, h]

theorem mem_unionDescendants {V : Type} {g : Graph V} {ops : List Nat} {i : Nat} :
    i ∈ unionDescendants g ops ↔ ∃ o ∈ ops, i ∈ descOf g o := by
  simp [unionDescendants]

theorem unionDescendants_congr {V : Type} {g g' : Graph V} {ops : List Nat}
    (h : ∀ o ∈ ops, descOf g' o = descOf g o) :
    unionDescendants g' ops = unionDescendants g ops := by
  ext i
  rw [mem_unionDescendants, mem_unionDescendants]
  constructor
  · rintro ⟨o, ho, hi⟩
    exact ⟨o, ho, by rwa [h o ho] at hi⟩
  · rintro ⟨o, ho, hi⟩
    exact ⟨o, ho, by rwa [h o ho]⟩

theorem requireGrad_aux {V : Type} (g : Graph V) :
    ∀ (ns : List Nat), (∀ o ∈ ns, o < g.nodes.length) → ∀ (acc : Bool),
      ns.foldlM
        (fun acc n => (g.nodes[n]?).map (fun ni => acc || ni.node.RequiresGrad))
        acc
      = some (acc || ns.any (fun o => requiresGradAt g o)) := by
  intro ns
  induction ns with
  | nil => intro _ acc; simp
  | cons n ns ih =>
    intro hlt acc
    have hn : n < g.nodes.length := hlt n (by simp)
    have hsome : g.nodes[n]? = some g.nodes[n] := List.getElem?_eq_getElem hn
    rw [List.foldlM_cons, hsome]
    simp only [Option.map_some', Option.bind_eq_bind, Option.some_bind]
    rw [ih (fun o ho => hlt o (by simp [ho])) _]
    have : requiresGradAt g n = (g.nodes[n]).node.RequiresGrad :=
      requiresGradAt_eq hsome
    simp [this, Bool.or_assoc]

theorem requireGrad_eq {V : Type} {g : Graph V} {ns : List Nat}
    (h : ∀ o ∈ ns, o < g.nodes.length) :
    requireGrad g ns = some (ns.any (fun o => requiresGradAt g o)) := by
  simpa [requireGrad] using requireGrad_aux g ns h false

theorem requireGrad_isSome_lt_aux {V : Type} {g : Graph V} :
    ∀ (ns : List Nat) (acc b : Bool),
      ns.foldlM
        (fun acc n => (g.nodes[n]?).map (fun ni => acc || ni.node.RequiresGrad))
        acc = some b →
      ∀ o ∈ ns, o < g.nodes.length := by
  intro ns
  induction ns with
  | nil => intro acc b _ o ho; simp at ho
  | cons n ns ih =>
    intro acc b h o ho
    rw [List.foldlM_cons] at h
    rcases hn : g.nodes[n]? with _ | ni
    · rw [hn] at h; simp at h
    · rw [hn] at h
      simp only [Option.map_some', Option.bind_eq_bind, Option.some_bind] at h
      rcases List.mem_cons.mp ho with rfl | ho'
      · exact lt_of_getElem?_eq_some hn
      · exact ih _ b h o ho'

theorem requireGrad_isSome_lt {V : Type} {g : Graph V} {ns : List Nat} {b : Bool}
    (h : requireGrad g ns = some b) : ∀ o ∈ ns, o < g.nodes.length :=
  requireGrad_isSome_lt_aux ns false b h

theorem requireGrad_none {V : Type} {g : Graph V} {ns : List Nat} {o : Nat}
    (ho : o ∈ ns) (h : g.nodes.length ≤ o) : requireGrad g ns = none := by
  rcases hr : requireGrad g ns with _ | b
  · rfl
  · exact absurd (requireGrad_isSome_lt hr o ho) (by omega)

theorem sumDescendants_isSome {V : Type} (g : Graph V) :
    ∀ (ns : List Nat), (∀ o ∈ ns, o < g.nodes.length) → ∀ (acc : Nat),
      ∃ m, ns.foldlM
        (fun sum n => (g.nodes[n]?).map (fun ni => sum + ni.descendants.length))
        acc = some m := by
  intro ns
  induction ns with
  | nil => intro _ acc; exact ⟨acc, rfl⟩
  | cons n ns ih =>
    intro hlt acc
    have hn : n < g.nodes.length := hlt n (by simp)
    have hsome : g.nodes[n]? = some g.nodes[n] := List.getElem?_eq_getElem hn
    rw [List.foldlM_cons, hsome]
    simp only [Option.map_some', Option.bind_eq_bind, Option.some_bind]
    exact ih (fun o ho => hlt o (by simp [ho])) _

theorem visitDescendant_sim {V : Type} {ns0 : List (nodeInfo V)} {d0 : Nat}
    {M : Finset Nat} {st : LoopState V} (hs : LoopSim ns0 d0 M st) {d : Nat}
    (hd : d < ns0.length) :
    ∃ st', visitDescendant st d = some st' ∧ LoopSim ns0 d0 (insert d M) st' := by
  have hm := hs.mark_at d hd
  by_cases hdM : d ∈ M
  · refine ⟨st, ?_, ?_⟩
    · rw [visitDescendant, hm]
      simp [hdM]
    · rwa [Finset.insert_eq_self.mpr hdM]
  · have h0 : ns0[d]? = some ns0[d] := List.getElem?_eq_getElem hd
    have hnode := hs.nodes_at d ns0[d] h0
    have hdn : d < st.nodes.length := by rw [hs.len_nodes]; exact hd
    have hdm : d < st.mark.length := by rw [hs.len_mark]; exact hd
    refine ⟨⟨st.nodes.set d
        ⟨ns0[d].node, ns0[d].depth + (if d ∈ M then 1 else 0) + 1, ns0[d].descendants⟩,
        maxDepth (ns0[d].depth + (if d ∈ M then 1 else 0) + 1) st.maxDepth,
        st.mark.set d true, st.descendants ++ [d]⟩, ?_, ?_⟩
    · rw [visitDescendant, hm, Option.bind_eq_bind, Option.some_bind]
      simp only [hdM, decide_False, Bool.false_eq_true, if_false]
      rw [hnode, Option.bind_eq_bind, Option.some_bind]
      simp [hdM]
    · constructor
      · simpa using hs.len_nodes
      · simpa using hs.len_mark
      · intro i ni0 h0i
        by_cases hid : i = d
        · subst hid
          have : ni0 = ns0[i] := by
            rw [h0] at h0i
            exact (Option.some.injEq _ _).mp h0i.symm
          subst this
          rw [List.getElem?_set_eq_of_lt _ hdn]
          simp [hdM]
        · rw [List.getElem?_set_ne (fun h => hid h.symm)]
          rw [hs.nodes_at i ni0 h0i]
          simp [Finset.mem_insert, hid]
      · intro i hi
        by_cases hid : i = d
        · subst hid
          rw [List.getElem?_set_eq_of_lt _ hdm]
          simp
        · rw [List.getElem?_set_ne (fun h => hid h.symm)]
          rw [hs.mark_at i hi]
          simp [Finset.mem_insert, hid]
      · rw [List.nodup_append]
        refine ⟨hs.desc_nodup, List.nodup_singleton d, ?_⟩
        intro a ha hb
        rcases List.mem_singleton.mp hb with rfl
        exact hdM (hs.desc_set ▸ List.mem_toFinset.mpr ha)
      · rw [List.toFinset_append, hs.desc_set]
        ext x
        simp only [Finset.mem_union, Finset.mem_insert, List.toFinset_cons,
          List.toFinset_nil, insert_emptyc_eq, Finset.mem_singleton]
        tauto
      · intro i hi
        rcases Finset.mem_insert.mp hi with rfl | hiM
        · exact hd
        · exact hs.sub i hiM
      · rw [maxDepth_eq_max, hs.maxd, Finset.sup_insert, sup_eq_max, h0]
        simp only [hdM, if_false, Option.map_some', Option.getD_some]
        omega

theorem foldDescendants_sim {V : Type} {ns0 : List (nodeInfo V)} {d0 : Nat} :
    ∀ (ds : List Nat), (∀ d ∈ ds, d < ns0.length) →
    ∀ (M : Finset Nat) (st : LoopState V), LoopSim ns0 d0 M st →
    ∃ st', ds.foldlM visitDescendant st = some st' ∧
      LoopSim ns0 d0 (M ∪ ds.toFinset) st' := by
  intro ds
  induction ds with
  | nil =>
    intro _ M st hs
    exact ⟨st, rfl, by simpa using hs⟩
  | cons d ds ih =>
    intro hlt M st hs
    obtain ⟨st1, h1, hs1⟩ := visitDescendant_sim hs (hlt d (by simp))
    obtain ⟨st', h', hs'⟩ := ih (fun x hx => hlt x (by simp [hx])) _ _ hs1
    refine ⟨st', ?_, ?_⟩
    · rw [List.foldlM_cons, h1, Option.bind_eq_bind, Option.some_bind]
      exact h'
    · have : insert d M ∪ ds.toFinset = M ∪ (d :: ds).toFinset := by
        ext x
        simp only [Finset.mem_union, Finset.mem_insert, List.toFinset_cons,
          List.mem_toFinset]
        tauto
      rwa [this] at hs'

theorem foldOperands_sim {V : Type} {g : Graph V} (hInv : Inv g) :
    ∀ (ops : List Nat), (∀ o ∈ ops, o < g.nodes.length) →
    ∀ (M : Finset Nat) (st : LoopState V), LoopSim g.nodes g.maxDepth M st →
    ∃ st', ops.foldlM visitOperand st = some st' ∧
      LoopSim g.nodes g.maxDepth
        (M ∪ (ops.flatMap (fun o => descOf g o)).toFinset) st' := by
  intro ops
  induction ops with
  | nil =>
    intro _ M st hs
    exact ⟨st, rfl, by simpa using hs⟩
  | cons o ops ih =>
    intro hlt M st hs
    have ho : o < g.nodes.length := hlt o (by simp)
    have h0 : g.nodes[o]? = some g.nodes[o] := List.getElem?_eq_getElem ho
    have hnode := hs.nodes_at o g.nodes[o] h0
    have hdesc : descOf g o = g.nodes[o].descendants := descOf_eq h0
    have hin : ∀ d ∈ g.nodes[o].descendants, d < g.nodes.length := by
      intro d hd
      have := hInv.desc_le o g.nodes[o] h0 d hd
      omega
    obtain ⟨st1, h1, hs1⟩ := foldDescendants_sim g.nodes[o].descendants hin M st hs
    obtain ⟨st', h', hs'⟩ := ih (fun x hx => hlt x (by simp [hx])) _ _ hs1
    refine ⟨st', ?_, ?_⟩
    · rw [List.foldlM_cons, visitOperand, hnode]
      simp only [Option.bind_eq_bind, Option.some_bind]
      rw [h1]
      simp only [Option.bind_eq_bind, Option.some_bind]
      exact h'
    · have : M ∪ g.nodes[o].descendants.toFinset ∪
          (ops.flatMap (fun x => descOf g x)).toFinset =
          M ∪ ((o :: ops).flatMap (fun x => descOf g x)).toFinset := by
        rw [List.flatMap_cons, List.toFinset_append, hdesc]
        ext x
        simp only [Finset.mem_union]
        tauto
      rwa [this] at hs'

theorem loopSim_init {V : Type} (g : Graph V) :
    LoopSim g.nodes g.maxDepth ∅
      ⟨g.nodes, g.maxDepth, List.replicate g.nodes.length false, []⟩ := by
  constructor
  · rfl
  · simp
  · intro i ni0 h0
    rw [if_neg (Finset.not_mem_empty i), Nat.add_zero]
    exact h0
  · intro i hi
    simp [List.getElem?_replicate, hi]
  · exact List.nodup_nil
  · simp
  · intro i hi
    simp at hi
  · simp

theorem NewOperator_char {V : Type} {g : Graph V} (hInv : Inv g) (f : Fn V)
    {ops : List Nat} (hops : ∀ o ∈ ops, o < g.nodes.length) :
    ∃ st : LoopState V,
      LoopSim g.nodes g.maxDepth (unionDescendants g ops) st ∧
      NewOperator g f ops =
        some { maxId := g.maxId + 1, maxDepth := st.maxDepth,
               nodes := st.nodes ++
                 [⟨Node.Operator (newId g) f.forward
                     (ops.any (fun o => requiresGradAt g o)) ops, 0,
                   st.descendants ++ [newId g]⟩] } := by
  obtain ⟨st, hfold, hsim⟩ := foldOperands_sim hInv ops hops ∅ _ (loopSim_init g)
  have hU : (∅ ∪ (ops.flatMap fun o => descOf g o).toFinset) =
      unionDescendants g ops := by
    simp [unionDescendants]
  rw [hU] at hsim
  refine ⟨st, hsim, ?_⟩
  have hm := sumDescendants_isSome g ops hops 0
  obtain ⟨m, hm⟩ := hm
  have hm' : sumDescendants g ops = some m := hm
  simp only [NewOperator, requireGrad_eq hops, hm', hfold, Option.bind_eq_bind,
    Option.some_bind]
  rfl

theorem isOperatorAt_eq {V : Type} {g : Graph V} {i : Nat} {ni : nodeInfo V}
    (h : g.nodes[i]? = some ni) : isOperatorAt g i = ni.node.isOperator := by
  simp only [isOperatorAt, h]
  cases ni.node <;> rfl

theorem inv_append_leaf {V : Type} {g : Graph V} (hInv : Inv g) {p : Node V}
    (hid : p.Id = g.nodes.length) (hops : p.operandsOf = [])
    (hop : p.isOperator = false) :
    Inv { maxId := g.maxId + 1, maxDepth := g.maxDepth,
          nodes := g.nodes ++ [⟨p, 0, [g.nodes.length]⟩] } := by
  set len := g.nodes.length with hlen
  set r : nodeInfo V := ⟨p, 0, [len]⟩ with hrdef
  set gl : Graph V := ⟨g.maxId + 1, g.maxDepth, g.nodes ++ [r]⟩ with hgl
  have hnodes : gl.nodes = g.nodes ++ [r] := rfl
  have lk_lt : ∀ (i : Nat) (ni : nodeInfo V), g.nodes[i]? = some ni →
      gl.nodes[i]? = some ni := by
    intro i ni h
    rw [hnodes, List.getElem?_append_left (lt_of_getElem?_eq_some h)]
    exact h
  have lk_new : gl.nodes[len]? = some r := by
    rw [hnodes]
    exact List.getElem?_concat_length _ _
  have lk_cases : ∀ (i : Nat) (ni : nodeInfo V), gl.nodes[i]? = some ni →
      (i < len ∧ g.nodes[i]? = some ni) ∨ (i = len ∧ ni = r) := by
    intro i ni h
    rw [hnodes] at h
    rcases getElem?_append_cases h with ⟨h1, h2⟩ | ⟨h1, h2⟩
    · exact Or.inl ⟨h1, h2⟩
    · exact Or.inr ⟨h1, h2⟩
  have hdesc : ∀ j, j < len → descOf gl j = descOf g j := by
    intro j hj
    simp [descOf, hnodes, List.getElem?_append_left hj]
  have hisop : ∀ j, j < len → isOperatorAt gl j = isOperatorAt g j := by
    intro j hj
    have hsome : g.nodes[j]? = some g.nodes[j] := List.getElem?_eq_getElem hj
    rw [isOperatorAt_eq (lk_lt j _ hsome), isOperatorAt_eq hsome]
  have hisop_new : isOperatorAt gl len = false := by
    rw [isOperatorAt_eq lk_new]
    exact hop
  have hcons : ∀ n, consumers gl n = consumers g n := by
    intro n
    ext j
    simp only [consumers, Finset.mem_filter, Finset.mem_range, hnodes,
      List.length_append, List.length_singleton]
    constructor
    · rintro ⟨hj, hjop, hjn, hjdesc⟩
      rcases Nat.lt_or_ge j len with hjlt | hjge
      · exact ⟨hjlt, by rwa [hisop j hjlt] at hjop, hjn, by rwa [hdesc j hjlt] at hjdesc⟩
      · exfalso
        have hj_eq : j = len := by omega
        rw [hj_eq] at hjop
        rw [hisop_new] at hjop
        exact Bool.noConfusion hjop
    · rintro ⟨hj, hjop, hjn, hjdesc⟩
      exact ⟨by omega, by rwa [hisop j hj], hjn, by rwa [hdesc j hj]⟩
  have hcons_new : consumers gl len = ∅ := by
    ext j
    simp only [consumers, Finset.mem_filter, Finset.mem_range,
      Finset.not_mem_empty, iff_false, hnodes, List.length_append,
      List.length_singleton]
    rintro ⟨hj, hjop, hjn, hjdesc⟩
    rcases Nat.lt_or_ge j len with hjlt | hjge
    · rw [hdesc j hjlt] at hjdesc
      have hsome : g.nodes[j]? = some g.nodes[j] := List.getElem?_eq_getElem hjlt
      rw [descOf_eq hsome] at hjdesc
      have := hInv.desc_le j _ hsome len hjdesc
      omega
    · exact hjn (by omega)
  constructor
  · show g.maxId + 1 = (g.nodes ++ [r]).length
    rw [List.length_append, List.length_singleton, hInv.maxId_eq]
  · intro i ni h
    rcases lk_cases i ni h with ⟨hlt, h'⟩ | ⟨heq, h'⟩
    · exact hInv.id_eq i ni h'
    · rw [h', heq]
      exact hid
  · intro i ni h
    rcases lk_cases i ni h with ⟨hlt, h'⟩ | ⟨heq, h'⟩
    · exact hInv.self_mem i ni h'
    · rw [h', heq]
      simp [hrdef]
  · intro i ni h
    rcases lk_cases i ni h with ⟨hlt, h'⟩ | ⟨heq, h'⟩
    · exact hInv.desc_nodup i ni h'
    · rw [h']
      exact List.nodup_singleton len
  · intro i ni h j hj
    rcases lk_cases i ni h with ⟨hlt, h'⟩ | ⟨heq, h'⟩
    · exact hInv.desc_le i ni h' j hj
    · rw [h'] at hj
      simp only [hrdef, List.mem_singleton] at hj
      omega
  · intro i ni h j hj k hk
    rcases lk_cases i ni h with ⟨hlt, h'⟩ | ⟨heq, h'⟩
    · have hjlt : j < len := by
        have := hInv.desc_le i ni h' j hj
        omega
      rw [hdesc j hjlt] at hk
      exact hInv.desc_closed i ni h' j hj k hk
    · rw [h'] at hj
      simp only [hrdef, List.mem_singleton] at hj
      rw [hj, descOf_eq lk_new] at hk
      rw [h']
      exact hk
  · intro i ni h o ho
    rcases lk_cases i ni h with ⟨hlt, h'⟩ | ⟨heq, h'⟩
    · exact hInv.ops_lt i ni h' o ho
    · rw [h', hrdef] at ho
      simp only at ho
      rw [hops] at ho
      simp at ho
  · intro i ni h
    rcases lk_cases i ni h with ⟨hlt, h'⟩ | ⟨heq, h'⟩
    · rw [hInv.desc_sets i ni h']
      have : unionDescendants gl ni.node.operandsOf =
          unionDescendants g ni.node.operandsOf := by
        refine unionDescendants_congr ?_
        intro o ho
        have holt : o < i := hInv.ops_lt i ni h' o ho
        exact hdesc o (by omega)
      rw [this]
    · rw [h', heq]
      simp only [hrdef]
      rw [hops]
      simp [unionDescendants]
  · intro i ni h
    rcases lk_cases i ni h with ⟨hlt, h'⟩ | ⟨heq, h'⟩
    · exact hInv.depth_le i ni h'
    · rw [h']
      simp [hrdef]
  · rcases hInv.maxDepth_attained with h0 | ⟨i, ni, h, hdep⟩
    · exact Or.inl h0
    · exact Or.inr ⟨i, ni, lk_lt i ni h, hdep⟩
  · intro i ni h
    rcases lk_cases i ni h with ⟨hlt, h'⟩ | ⟨heq, h'⟩
    · rw [hcons i]
      exact hInv.depth_count i ni h'
    · rw [h', heq, hcons_new]
      simp [hrdef]

theorem inv_NewVariable {V : Type} {g : Graph V} (hInv : Inv g) (v : V)
    (rg : Bool) : Inv (NewVariable g v rg) := by
  have h := inv_append_leaf hInv (p := Node.Variable g.maxId v rg)
    (by rw [Node.Id, hInv.maxId_eq]) rfl rfl
  rw [hInv.maxId_eq] at h
  show Inv { maxId := g.maxId + 1, maxDepth := g.maxDepth,
             nodes := g.nodes ++ [⟨Node.Variable g.maxId v rg, 0, [g.maxId]⟩] }
  rw [hInv.maxId_eq]
  exact h

theorem inv_NewWrap {V : Type} {g : Graph V} (hInv : Inv g) (v : GradValue V) :
    Inv (NewWrap g v) := by
  have h := inv_append_leaf hInv (p := Node.Wrapper g.maxId v true)
    (by rw [Node.Id, hInv.maxId_eq]) rfl rfl
  rw [hInv.maxId_eq] at h
  show Inv { maxId := g.maxId + 1, maxDepth := g.maxDepth,
             nodes := g.nodes ++ [⟨Node.Wrapper g.maxId v true, 0, [g.maxId]⟩] }
  rw [hInv.maxId_eq]
  exact h

theorem inv_NewWrapNoGrad {V : Type} {g : Graph V} (hInv : Inv g)
    (v : GradValue V) : Inv (NewWrapNoGrad g v) := by
  have h := inv_append_leaf hInv (p := Node.Wrapper g.maxId v false)
    (by rw [Node.Id, hInv.maxId_eq]) rfl rfl
  rw [hInv.maxId_eq] at h
  show Inv { maxId := g.maxId + 1, maxDepth := g.maxDepth,
             nodes := g.nodes ++ [⟨Node.Wrapper g.maxId v false, 0, [g.maxId]⟩] }
  rw [hInv.maxId_eq]
  exact h

theorem NewOperator_ops_lt {V : Type} {g g' : Graph V} {f : Fn V}
    {ops : List Nat} (h : NewOperator g f ops = some g') :
    ∀ o ∈ ops, o < g.nodes.length := by
  rcases hr : requireGrad g ops with _ | b
  · rw [NewOperator] at h
    rw [hr] at h
    simp at h
  · exact requireGrad_isSome_lt hr

theorem sup_depth_ge {V : Type} (g : Graph V) (U : Finset Nat) {i : Nat}
    (hiU : i ∈ U) :
    (((g.nodes[i]?).map nodeInfo.depth).getD 0) + 1 ≤
      U.sup (fun j => (((g.nodes[j]?).map nodeInfo.depth).getD 0) + 1) :=
  @Finset.le_sup Nat Nat _ _ U
    (fun j => (((g.nodes[j]?).map nodeInfo.depth).getD 0) + 1) i hiU

theorem inv_NewOperator {V : Type} {g g' : Graph V} (hInv : Inv g) {f : Fn V}
    {ops : List Nat} (h : NewOperator g f ops = some g') : Inv g' := by
  have hops := NewOperator_ops_lt h
  obtain ⟨st, hsim, heq⟩ := NewOperator_char hInv f hops
  rw [h] at heq
  have hg' : g' = _ := (Option.some.injEq _ _).mp heq
  subst hg'
  rw [newId, hInv.maxId_eq]
  set len := g.nodes.length with hlendef
  set U := unionDescendants g ops with hUdef
  set rg := ops.any (fun o => requiresGradAt g o) with hrgdef
  set rec : nodeInfo V :=
    ⟨Node.Operator len f.forward rg ops, 0, st.descendants ++ [len]⟩ with hrecdef
  set gl : Graph V := ⟨len + 1, st.maxDepth, st.nodes ++ [rec]⟩ with hgldef
  have hnodes : gl.nodes = st.nodes ++ [rec] := rfl
  have slen : st.nodes.length = len := hsim.len_nodes
  have hUlt : ∀ i ∈ U, i < len := hsim.sub
  have hUmem : ∀ x, x ∈ st.descendants ↔ x ∈ U := by
    intro x
    rw [← hsim.desc_set, List.mem_toFinset]
  have lk_lt : ∀ (i : Nat) (ni0 : nodeInfo V), g.nodes[i]? = some ni0 →
      gl.nodes[i]? =
        some ⟨ni0.node, ni0.depth + (if i ∈ U then 1 else 0), ni0.descendants⟩ := by
    intro i ni0 h0
    have hi : i < st.nodes.length := by
      rw [slen]
      exact lt_of_getElem?_eq_some h0
    rw [hnodes, List.getElem?_append_left hi]
    exact hsim.nodes_at i ni0 h0
  have lk_new : gl.nodes[len]? = some rec := by
    rw [hnodes, ← slen]
    exact List.getElem?_concat_length _ _
  have lk_cases : ∀ (i : Nat) (ni : nodeInfo V), gl.nodes[i]? = some ni →
      (i < len ∧ ∃ ni0 : nodeInfo V, g.nodes[i]? = some ni0 ∧
        ni = ⟨ni0.node, ni0.depth + (if i ∈ U then 1 else 0), ni0.descendants⟩) ∨
      (i = len ∧ ni = rec) := by
    intro i ni h'
    rw [hnodes] at h'
    rcases getElem?_append_cases h' with ⟨h1, h2⟩ | ⟨h1, h2⟩
    · left
      rw [slen] at h1
      refine ⟨h1, g.nodes[i], List.getElem?_eq_getElem h1, ?_⟩
      have := hsim.nodes_at i g.nodes[i] (List.getElem?_eq_getElem h1)
      rw [this] at h2
      exact (Option.some.injEq _ _).mp h2.symm
    · right
      rw [slen] at h1
      exact ⟨h1, h2⟩
  have hdesc' : ∀ j, j < len → descOf gl j = descOf g j := by
    intro j hj
    have h0 : g.nodes[j]? = some g.nodes[j] := List.getElem?_eq_getElem hj
    rw [descOf_eq (lk_lt j _ h0), descOf_eq h0]
  have hdesc_new : descOf gl len = st.descendants ++ [len] := descOf_eq lk_new
  have hisop' : ∀ j, j < len → isOperatorAt gl j = isOperatorAt g j := by
    intro j hj
    have h0 : g.nodes[j]? = some g.nodes[j] := List.getElem?_eq_getElem hj
    rw [isOperatorAt_eq (lk_lt j _ h0), isOperatorAt_eq h0]
  have hisop_new : isOperatorAt gl len = true := by
    rw [isOperatorAt_eq lk_new]
    rfl
  have hmemU_of_desc : ∀ j ∈ U, ∀ k ∈ descOf g j, k ∈ U := by
    intro j hj k hk
    rcases mem_unionDescendants.mp hj with ⟨o, ho, hjo⟩
    have holt : o < len := hops o ho
    have h0 : g.nodes[o]? = some g.nodes[o] := List.getElem?_eq_getElem holt
    have : k ∈ g.nodes[o].descendants := by
      refine hInv.desc_closed o g.nodes[o] h0 j ?_ k hk
      rwa [descOf_eq h0] at hjo
    refine mem_unionDescendants.mpr ⟨o, ho, ?_⟩
    rwa [descOf_eq h0]
  have hcons : ∀ n, n < len →
      consumers gl n =
        if n ∈ U then insert len (consumers g n) else consumers g n := by
    intro n hn
    have hmem : ∀ j, j ∈ consumers gl n ↔ (j ∈ consumers g n ∨ (j = len ∧ n ∈ U)) := by
      intro j
      simp only [consumers, Finset.mem_filter, Finset.mem_range, hnodes,
        List.length_append, List.length_singleton, slen]
      constructor
      · rintro ⟨hj, hjop, hjn, hjdesc⟩
        rcases Nat.lt_or_ge j len with hjlt | hjge
        · exact Or.inl ⟨hjlt, by rwa [hisop' j hjlt] at hjop, hjn,
            by rwa [hdesc' j hjlt] at hjdesc⟩
        · have hj_eq : j = len := by omega
          right
          refine ⟨hj_eq, ?_⟩
          rw [hj_eq, hdesc_new] at hjdesc
          rcases List.mem_append.mp hjdesc with hh | hh
          · exact (hUmem n).mp hh
          · rcases List.mem_singleton.mp hh with rfl
            omega
      · rintro (⟨hj, hjop, hjn, hjdesc⟩ | ⟨rfl, hnU⟩)
        · exact ⟨by omega, by rwa [hisop' j hj], hjn, by rwa [hdesc' j hj]⟩
        · refine ⟨by omega, hisop_new, by omega, ?_⟩
          rw [hdesc_new]
          exact List.mem_append.mpr (Or.inl ((hUmem n).mpr hnU))
    by_cases hnU : n ∈ U
    · rw [if_pos hnU]
      ext j
      rw [hmem j, Finset.mem_insert]
      constructor
      · rintro (hj | ⟨rfl, _⟩)
        · exact Or.inr hj
        · exact Or.inl rfl
      · rintro (rfl | hj)
        · exact Or.inr ⟨rfl, hnU⟩
        · exact Or.inl hj
    · rw [if_neg hnU]
      ext j
      rw [hmem j]
      constructor
      · rintro (hj | ⟨rfl, hn'⟩)
        · exact hj
        · exact absurd hn' hnU
      · exact fun hj => Or.inl hj
  have hlen_not_mem : ∀ n, len ∉ consumers g n := by
    intro n hmem
    have := Finset.mem_filter.mp hmem
    have := Finset.mem_range.mp this.1
    omega
  have hcons_new : consumers gl len = ∅ := by
    ext j
    simp only [consumers, Finset.mem_filter, Finset.mem_range,
      Finset.not_mem_empty, iff_false, hnodes, List.length_append,
      List.length_singleton, slen]
    rintro ⟨hj, hjop, hjn, hjdesc⟩
    rcases Nat.lt_or_ge j len with hjlt | hjge
    · rw [hdesc' j hjlt] at hjdesc
      have h0 : g.nodes[j]? = some g.nodes[j] := List.getElem?_eq_getElem hjlt
      rw [descOf_eq h0] at hjdesc
      have := hInv.desc_le j _ h0 len hjdesc
      omega
    · exact hjn (by omega)
  constructor
  · show len + 1 = (st.nodes ++ [rec]).length
    rw [List.length_append, List.length_singleton, slen]
  · intro i ni h'
    rcases lk_cases i ni h' with ⟨hlt, ni0, h0, rfl⟩ | ⟨rfl, rfl⟩
    · exact hInv.id_eq i ni0 h0
    · rfl
  · intro i ni h'
    rcases lk_cases i ni h' with ⟨hlt, ni0, h0, rfl⟩ | ⟨rfl, rfl⟩
    · exact hInv.self_mem i ni0 h0
    · simp [hrecdef]
  · intro i ni h'
    rcases lk_cases i ni h' with ⟨hlt, ni0, h0, rfl⟩ | ⟨rfl, rfl⟩
    · exact hInv.desc_nodup i ni0 h0
    · show (st.descendants ++ [len]).Nodup
      rw [List.nodup_append]
      refine ⟨hsim.desc_nodup, List.nodup_singleton len, ?_⟩
      intro a ha hb
      rcases List.mem_singleton.mp hb with rfl
      have := hUlt _ ((hUmem _).mp ha)
      omega
  · intro i ni h' j hj
    rcases lk_cases i ni h' with ⟨hlt, ni0, h0, rfl⟩ | ⟨rfl, rfl⟩
    · exact hInv.desc_le i ni0 h0 j hj
    · show j ≤ len
      rcases List.mem_append.mp hj with hh | hh
      · have := hUlt j ((hUmem j).mp hh)
        omega
      · rcases List.mem_singleton.mp hh with rfl
        omega
  · intro i ni h' j hj k hk
    rcases lk_cases i ni h' with ⟨hlt, ni0, h0, rfl⟩ | ⟨rfl, rfl⟩
    · have hjlt : j < len := by
        have := hInv.desc_le i ni0 h0 j hj
        omega
      rw [hdesc' j hjlt] at hk
      exact hInv.desc_closed i ni0 h0 j hj k hk
    · rcases List.mem_append.mp hj with hh | hh
      · have hjU : j ∈ U := (hUmem j).mp hh
        have hjlt : j < len := hUlt j hjU
        rw [hdesc' j hjlt] at hk
        have hkU : k ∈ U := hmemU_of_desc j hjU k hk
        exact List.mem_append.mpr (Or.inl ((hUmem k).mpr hkU))
      · rcases List.mem_singleton.mp hh with rfl
        rw [hdesc_new] at hk
        exact hk
  · intro i ni h' o ho
    rcases lk_cases i ni h' with ⟨hlt, ni0, h0, rfl⟩ | ⟨rfl, rfl⟩
    · exact hInv.ops_lt i ni0 h0 o ho
    · exact hops o ho
  · intro i ni h'
    rcases lk_cases i ni h' with ⟨hlt, ni0, h0, rfl⟩ | ⟨rfl, rfl⟩
    · show ni0.descendants.toFinset =
        insert i (unionDescendants gl ni0.node.operandsOf)
      rw [hInv.desc_sets i ni0 h0]
      have : unionDescendants gl ni0.node.operandsOf =
          unionDescendants g ni0.node.operandsOf := by
        refine unionDescendants_congr ?_
        intro o ho
        have holt : o < i := hInv.ops_lt i ni0 h0 o ho
        exact hdesc' o (by omega)
      rw [this]
    · show (st.descendants ++ [len]).toFinset =
        insert len (unionDescendants gl ops)
      have : unionDescendants gl ops = U := by
        refine unionDescendants_congr ?_
        intro o ho
        exact hdesc' o (hops o ho)
      rw [this, List.toFinset_append, hsim.desc_set]
      ext x
      simp only [Finset.mem_union, Finset.mem_insert, List.toFinset_cons,
        List.toFinset_nil, insert_emptyc_eq, Finset.mem_singleton]
      tauto
  · intro i ni h'
    rcases lk_cases i ni h' with ⟨hlt, ni0, h0, rfl⟩ | ⟨rfl, rfl⟩
    · show ni0.depth + (if i ∈ U then 1 else 0) ≤ st.maxDepth
      rw [hsim.maxd]
      by_cases hiU : i ∈ U
      · have h1 := sup_depth_ge g U hiU
        rw [h0, Option.map_some', Option.getD_some] at h1
        rw [if_pos hiU]
        omega
      · have := hInv.depth_le i ni0 h0
        rw [if_neg hiU]
        omega
    · show (0 : Nat) ≤ st.maxDepth
      omega
  · rcases U.eq_empty_or_nonempty with hU | hU
    · have hms : st.maxDepth = g.maxDepth := by
        rw [hsim.maxd, hU]
        simp
      rcases hInv.maxDepth_attained with h0 | ⟨i, ni0, h0, hdep⟩
      · left
        show st.maxDepth = 0
        rw [hms, h0]
      · right
        refine ⟨i, _, lk_lt i ni0 h0, ?_⟩
        show ni0.depth + (if i ∈ U then 1 else 0) = st.maxDepth
        have hiU : i ∉ U := by
          rw [hU]
          exact Finset.not_mem_empty i
        rw [if_neg hiU]
        omega
    · obtain ⟨i, hiU, hsup⟩ :=
        Finset.exists_mem_eq_sup U hU
          (fun j => (((g.nodes[j]?).map nodeInfo.depth).getD 0) + 1)
      have hilt : i < len := hUlt i hiU
      have h0 : g.nodes[i]? = some g.nodes[i] := List.getElem?_eq_getElem hilt
      rw [h0, Option.map_some', Option.getD_some] at hsup
      rcases Nat.le_total
          (U.sup (fun j => (((g.nodes[j]?).map nodeInfo.depth).getD 0) + 1))
          g.maxDepth with hle | hle
      · rcases hInv.maxDepth_attained with hz | ⟨i', ni0', h0', hdep'⟩
        · left
          show st.maxDepth = 0
          rw [hsim.maxd]
          omega
        · right
          refine ⟨i', _, lk_lt i' ni0' h0', ?_⟩
          show ni0'.depth + (if i' ∈ U then 1 else 0) = st.maxDepth
          have hi'U : i' ∉ U := by
            intro hmem
            have h2 := sup_depth_ge g U hmem
            rw [h0', Option.map_some', Option.getD_some] at h2
            omega
          rw [if_neg hi'U, hsim.maxd]
          omega
      · right
        refine ⟨i, _, lk_lt i g.nodes[i] h0, ?_⟩
        show g.nodes[i].depth + (if i ∈ U then 1 else 0) = st.maxDepth
        rw [if_pos hiU, hsim.maxd]
        omega
  · intro i ni h'
    rcases lk_cases i ni h' with ⟨hlt, ni0, h0, rfl⟩ | ⟨rfl, rfl⟩
    · show ni0.depth + (if i ∈ U then 1 else 0) = (consumers gl i).card
      rw [hcons i hlt, hInv.depth_count i ni0 h0]
      by_cases hiU : i ∈ U
      · rw [if_pos hiU, if_pos hiU,
          Finset.card_insert_of_not_mem (hlen_not_mem i)]
      · rw [if_neg hiU, if_neg hiU]
        omega
    · show (0 : Nat) = (consumers gl len).card
      rw [hcons_new]
      rfl

theorem inv_NewScalar {V : Type} {g : Graph V} (hInv : Inv g) (v : V) :
    Inv (NewScalar g v) :=
  inv_NewVariable hInv v false

theorem inv_NewGraph (V : Type) : Inv (NewGraph V) := by
  refine ⟨rfl, ?_, ?_, ?_, ?_, ?_, ?_, ?_, ?_, Or.inl rfl, ?_⟩ <;>
    intro i ni h <;> simp [NewGraph] at h

theorem inv_step {V : Type} {g g' : Graph V} (hInv : Inv g) {ins : Instr V}
    (h : step g ins = some g') : Inv g' := by
  cases ins with
  | NewVariable v rg =>
    have : NewVariable g v rg = g' := (Option.some.injEq _ _).mp h
    rw [← this]
    exact inv_NewVariable hInv v rg
  | NewScalar v =>
    have : NewScalar g v = g' := (Option.some.injEq _ _).mp h
    rw [← this]
    exact inv_NewScalar hInv v
  | NewOperator f ops =>
    exact inv_NewOperator hInv h
  | NewWrap v =>
    have : NewWrap g v = g' := (Option.some.injEq _ _).mp h
    rw [← this]
    exact inv_NewWrap hInv v
  | NewWrapNoGrad v =>
    have : NewWrapNoGrad g v = g' := (Option.some.injEq _ _).mp h
    rw [← this]
    exact inv_NewWrapNoGrad hInv v

theorem run_inv {V : Type} :
    ∀ (is : List (Instr V)) (g g' : Graph V), Inv g → run g is = some g' →
      Inv g' := by
  intro is
  induction is with
  | nil =>
    intro g g' hInv h
    have : g = g' := (Option.some.injEq _ _).mp h
    rwa [← this]
  | cons ins is ih =>
    intro g g' hInv h
    rw [run, List.foldlM_cons] at h
    rcases hstep : step g ins with _ | g1
    · rw [hstep] at h
      simp at h
    · rw [hstep] at h
      simp only [Option.bind_eq_bind, Option.some_bind] at h
      exact ih g1 g' (inv_step hInv hstep) h

theorem reachable_inv {V : Type} {g : Graph V} (h : Reachable g) : Inv g := by
  obtain ⟨is, his⟩ := h
  exact run_inv is _ g (inv_NewGraph V) his

theorem foldr_union_eq {V : Type} {g : Graph V} {F : Nat → Finset Nat} :
    ∀ {ops : List Nat}, (∀ o ∈ ops, F o = (descOf g o).toFinset) →
      ((ops.map F).foldr (· ∪ ·) ∅) = unionDescendants g ops := by
  intro ops
  induction ops with
  | nil => intro _; simp [unionDescendants]
  | cons o ops ih =>
    intro h
    rw [List.map_cons, List.foldr_cons, ih (fun x hx => h x (by simp [hx])),
      h o (by simp)]
    ext x
    constructor
    · intro hx
      rcases Finset.mem_union.mp hx with hx | hx
      · simp only [unionDescendants, List.mem_toFinset, List.flatMap_cons,
          List.mem_append] at hx ⊢
        exact Or.inl hx
      · simp only [unionDescendants, List.mem_toFinset, List.flatMap_cons,
          List.mem_append] at hx ⊢
        exact Or.inr hx
    · intro hx
      simp only [unionDescendants, List.mem_toFinset, List.flatMap_cons,
        List.mem_append] at hx
      rcases hx with hx | hx
      · exact Finset.mem_union.mpr (Or.inl (List.mem_toFinset.mpr hx))
      · refine Finset.mem_union.mpr (Or.inr ?_)
        simp only [unionDescendants, List.mem_toFinset]
        exact hx

theorem ops_nil_at_zero {V : Type} {g : Graph V} (hInv : Inv g)
    {ni : nodeInfo V} (h : g.nodes[0]? = some ni) : ni.node.operandsOf = [] := by
  rcases hn : ni.node.operandsOf with _ | ⟨o, rest⟩
  · rfl
  · have := hInv.ops_lt 0 ni h o (by rw [hn]; simp)
    omega

theorem desc_toFinset_eq_depClosureF {V : Type} {g : Graph V} (hInv : Inv g) :
    ∀ n, n < g.nodes.length → ∀ fuel, n ≤ fuel →
      depClosureF g fuel n = (descOf g n).toFinset := by
  intro n
  induction n using Nat.strong_induction_on with
  | _ n ih =>
    intro hn fuel hfuel
    have h0 : g.nodes[n]? = some g.nodes[n] := List.getElem?_eq_getElem hn
    have hsets := hInv.desc_sets n g.nodes[n] h0
    rw [descOf_eq h0]
    cases fuel with
    | zero =>
      have hn0 : n = 0 := by omega
      subst hn0
      rw [depClosureF, hsets, ops_nil_at_zero hInv h0]
      simp [unionDescendants]
    | succ fuel =>
      rw [depClosureF, hsets]
      have hops : opsAt g n = g.nodes[n].node.operandsOf := opsAt_eq h0
      rw [hops]
      congr 1
      refine foldr_union_eq ?_
      intro o ho
      have holt : o < n := hInv.ops_lt n g.nodes[n] h0 o ho
      have : o ≤ fuel := by omega
      exact ih o holt (by omega) fuel this

theorem desc_toFinset_eq_depClosure {V : Type} {g : Graph V} (hInv : Inv g)
    {n : Nat} (hn : n < g.nodes.length) :
    (descOf g n).toFinset = depClosure g n :=
  (desc_toFinset_eq_depClosureF hInv n hn n le_rfl).symm

theorem consumers_eq_consumersSpec {V : Type} {g : Graph V} (hInv : Inv g)
    (n : Nat) : consumers g n = consumersSpec g n := by
  ext j
  simp only [consumers, consumersSpec, Finset.mem_filter, Finset.mem_range]
  constructor
  · rintro ⟨hj, hop, hjn, hmem⟩
    have h0 : g.nodes[j]? = some g.nodes[j] := List.getElem?_eq_getElem hj
    refine ⟨hj, hop, ?_⟩
    have : n ∈ g.nodes[j].descendants.toFinset := by
      rw [descOf_eq h0] at hmem
      exact List.mem_toFinset.mpr hmem
    rw [hInv.desc_sets j g.nodes[j] h0] at this
    rcases Finset.mem_insert.mp this with rfl | hU
    · exact absurd rfl hjn
    · rcases mem_unionDescendants.mp hU with ⟨o, ho, hno⟩
      have holt : o < j := hInv.ops_lt j g.nodes[j] h0 o ho
      refine ⟨o, by rwa [opsAt_eq h0], ?_⟩
      rw [← desc_toFinset_eq_depClosure hInv (by omega)]
      exact List.mem_toFinset.mpr hno
  · rintro ⟨hj, hop, o, ho, hno⟩
    have h0 : g.nodes[j]? = some g.nodes[j] := List.getElem?_eq_getElem hj
    rw [opsAt_eq h0] at ho
    have holt : o < j := hInv.ops_lt j g.nodes[j] h0 o ho
    have hno' : n ∈ descOf g o := by
      rw [← List.mem_toFinset, desc_toFinset_eq_depClosure hInv (by omega)]
      exact hno
    have hnlt : n ≤ o := by
      have ho0 : g.nodes[o]? = some g.nodes[o] :=
        List.getElem?_eq_getElem (by omega)
      have := hInv.desc_le o g.nodes[o] ho0 n (by rwa [descOf_eq ho0] at hno')
      omega
    refine ⟨hj, hop, by omega, ?_⟩
    have : n ∈ g.nodes[j].descendants.toFinset := by
      rw [hInv.desc_sets j g.nodes[j] h0]
      exact Finset.mem_insert.mpr (Or.inr (mem_unionDescendants.mpr ⟨o, ho, hno'⟩))
    rw [descOf_eq h0]
    exact List.mem_toFinset.mp this

theorem groupFold_char {V : Type} (D : Nat) :
    ∀ (rest : List (nodeInfo V)) (acc : List (List (Node V)))
      (pre : List (nodeInfo V)),
      (∀ ni ∈ rest, ni.depth < D) → acc.length = D →
      (∀ d, d < D →
        acc[d]? = some ((pre.filter (fun ni => ni.depth == d)).map nodeInfo.node)) →
      ∃ bs, rest.foldlM groupByStep acc = some bs ∧ bs.length = D ∧
        ∀ d, d < D →
          bs[d]? =
            some (((pre ++ rest).filter (fun ni => ni.depth == d)).map nodeInfo.node) := by
  intro rest
  induction rest with
  | nil =>
    intro acc pre _ hlen hacc
    exact ⟨acc, rfl, hlen, by simpa using hacc⟩
  | cons ni rest ih =>
    intro acc pre hd hlen hacc
    have hdep : ni.depth < D := hd ni (by simp)
    have hbucket := hacc ni.depth hdep
    have hstep : groupByStep acc ni =
        some (acc.set ni.depth
          (((pre.filter (fun x => x.depth == ni.depth)).map nodeInfo.node) ++ [ni.node])) := by
      rw [groupByStep, hbucket]
      rfl
    have hacc' : ∀ d, d < D →
        (acc.set ni.depth
          (((pre.filter (fun x => x.depth == ni.depth)).map nodeInfo.node) ++ [ni.node]))[d]? =
          some (((pre ++ [ni]).filter (fun x => x.depth == d)).map nodeInfo.node) := by
      intro d hdlt
      by_cases hd_eq : d = ni.depth
      · subst hd_eq
        rw [List.getElem?_set_eq_of_lt _ (by omega : ni.depth < acc.length)]
        have hfilter :
            List.filter (fun x => x.depth == ni.depth) [ni] = [ni] := by
          simp
        rw [List.filter_append, hfilter, List.map_append]
        rfl
      · rw [List.getElem?_set_ne (fun hh => hd_eq hh.symm)]
        rw [hacc d hdlt, List.filter_append]
        have hfb : (ni.depth == d) = false := by
          simp only [beq_eq_false_iff_ne, ne_eq]
          omega
        have : List.filter (fun x => x.depth == d) [ni] = [] := by
          simp [List.filter_cons, hfb]
        rw [this, List.append_nil]
    obtain ⟨bs, hbs, hbslen, hbschar⟩ :=
      ih _ (pre ++ [ni]) (fun x hx => hd x (by simp [hx])) (by simpa using hlen)
        hacc'
    refine ⟨bs, ?_, hbslen, ?_⟩
    · rw [List.foldlM_cons, hstep]
      simp only [Option.bind_eq_bind, Option.some_bind]
      exact hbs
    · intro d hdlt
      rw [hbschar d hdlt, List.append_assoc]
      rfl

theorem depth_lt_succ_maxDepth {V : Type} {g : Graph V} (hInv : Inv g) :
    ∀ ni ∈ g.nodes, ni.depth < g.maxDepth + 1 := by
  intro ni hni
  obtain ⟨i, hi, hget⟩ := List.getElem_of_mem hni
  have : g.nodes[i]? = some ni := by
    rw [List.getElem?_eq_getElem hi, hget]
  have := hInv.depth_le i ni this
  omega

theorem groupNodesByDepth_char {V : Type} {g : Graph V} (hInv : Inv g) :
    ∃ bs, groupNodesByDepth g = some bs ∧ bs.length = g.maxDepth + 1 ∧
      ∀ d, d < g.maxDepth + 1 →
        bs[d]? =
          some ((g.nodes.filter (fun ni => ni.depth == d)).map nodeInfo.node) := by
  obtain ⟨bs, hbs, hlen, hchar⟩ :=
    groupFold_char (g.maxDepth + 1) g.nodes
      (List.replicate (g.maxDepth + 1) []) [] (depth_lt_succ_maxDepth hInv)
      (by simp)
      (by
        intro d hd
        simp [List.getElem?_replicate, hd])
  exact ⟨bs, hbs, hlen, by simpa using hchar⟩

theorem frameL_rfl {V : Type} (xs : List (nodeInfo V)) : FrameL xs xs :=
  fun _ ni h => ⟨ni, h, rfl, rfl, le_rfl⟩

theorem frameL_trans {V : Type} {xs ys zs : List (nodeInfo V)}
    (h1 : FrameL xs ys) (h2 : FrameL ys zs) : FrameL xs zs := by
  intro i ni h
  obtain ⟨ni1, hy, hn1, hd1, hdep1⟩ := h1 i ni h
  obtain ⟨ni2, hz, hn2, hd2, hdep2⟩ := h2 i ni1 hy
  exact ⟨ni2, hz, hn2.trans hn1, hd2.trans hd1, le_trans hdep1 hdep2⟩

theorem frameL_append {V : Type} (xs ys : List (nodeInfo V)) :
    FrameL xs (xs ++ ys) := by
  intro i ni h
  exact ⟨ni, by rw [List.getElem?_append_left (lt_of_getElem?_eq_some h)]; exact h,
    rfl, rfl, le_rfl⟩

theorem visitDescendant_frame {V : Type} {st st' : LoopState V} {d : Nat}
    (h : visitDescendant st d = some st') : FrameL st.nodes st'.nodes := by
  rw [visitDescendant] at h
  rcases hm : st.mark[d]? with _ | m
  · rw [hm] at h
    simp at h
  · rw [hm] at h
    simp only [Option.bind_eq_bind, Option.some_bind] at h
    cases m with
    | true =>
      simp only [if_true] at h
      have : st = st' := by simpa using h
      rw [← this]
      exact frameL_rfl _
    | false =>
      simp only [Bool.false_eq_true, if_false] at h
      rcases hn : st.nodes[d]? with _ | ni
      · rw [hn] at h
        simp at h
      · rw [hn] at h
        simp only [Option.bind_eq_bind, Option.some_bind] at h
        have hst' : st' =
            ⟨st.nodes.set d { ni with depth := ni.depth + 1 },
             maxDepth (ni.depth + 1) st.maxDepth,
             st.mark.set d true, st.descendants ++ [d]⟩ := by
          simpa using h.symm
        rw [hst']
        intro i ni0 h0
        by_cases hid : i = d
        · subst hid
          have : ni0 = ni := by
            rw [hn] at h0
            exact (Option.some.injEq _ _).mp h0.symm
          subst this
          refine ⟨{ ni0 with depth := ni0.depth + 1 }, ?_, rfl, rfl,
            Nat.le_succ _⟩
          exact List.getElem?_set_eq_of_lt _ (lt_of_getElem?_eq_some hn)
        · exact ⟨ni0, by
            rw [List.getElem?_set_ne (fun hh => hid hh.symm)]
            exact h0, rfl, rfl, le_rfl⟩

theorem foldlM_frame {V : Type} {α : Type}
    {f : LoopState V → α → Option (LoopState V)}
    (hf : ∀ (s : LoopState V) (x : α) (s' : LoopState V),
      f s x = some s' → FrameL s.nodes s'.nodes) :
    ∀ (l : List α) (s s' : LoopState V), l.foldlM f s = some s' →
      FrameL s.nodes s'.nodes := by
  intro l
  induction l with
  | nil =>
    intro s s' h
    have : s = s' := (Option.some.injEq _ _).mp h
    rw [← this]
    exact frameL_rfl _
  | cons x l ih =>
    intro s s' h
    rw [List.foldlM_cons] at h
    rcases hx : f s x with _ | s1
    · rw [hx] at h
      simp at h
    · rw [hx] at h
      simp only [Option.bind_eq_bind, Option.some_bind] at h
      exact frameL_trans (hf s x s1 hx) (ih s1 s' h)

theorem visitOperand_frame {V : Type} {st st' : LoopState V} {o : Nat}
    (h : visitOperand st o = some st') : FrameL st.nodes st'.nodes := by
  rw [visitOperand] at h
  rcases hn : st.nodes[o]? with _ | ni
  · rw [hn] at h
    simp at h
  · rw [hn] at h
    simp only [Option.bind_eq_bind, Option.some_bind] at h
    exact foldlM_frame (fun _ _ _ hx => visitDescendant_frame hx) _ _ _ h

theorem NewOperator_frame {V : Type} {g g' : Graph V} {f : Fn V}
    {ops : List Nat} (h : NewOperator g f ops = some g') :
    FrameL g.nodes g'.nodes := by
  rw [NewOperator] at h
  rcases h1 : requireGrad g ops with _ | b
  · rw [h1] at h
    simp at h
  · rw [h1] at h
    simp only [Option.bind_eq_bind, Option.some_bind] at h
    rcases h2 : sumDescendants g ops with _ | m
    · rw [h2] at h
      simp at h
    · rw [h2] at h
      simp only [Option.bind_eq_bind, Option.some_bind] at h
      rcases h3 : ops.foldlM visitOperand
          ⟨g.nodes, g.maxDepth, List.replicate g.nodes.length false, []⟩
          with _ | st
      · rw [h3] at h
        simp at h
      · rw [h3] at h
        simp only [Option.bind_eq_bind, Option.some_bind] at h
        have hg' : g' =
            { maxId := g.maxId + 1, maxDepth := st.maxDepth,
              nodes := st.nodes ++
                [⟨Node.Operator (newId g) f.forward b ops, 0,
                  st.descendants ++ [newId g]⟩] } := by
          simpa using h.symm
        rw [hg']
        refine frameL_trans ?_ (frameL_append st.nodes _)
        exact foldlM_frame (fun _ _ _ hx => visitOperand_frame hx) ops _ st h3

theorem step_frame {V : Type} {g g' : Graph V} {ins : Instr V}
    (h : step g ins = some g') : FrameL g.nodes g'.nodes := by
  cases ins with
  | NewVariable v rg =>
    have : NewVariable g v rg = g' := (Option.some.injEq _ _).mp h
    rw [← this]
    exact frameL_append _ _
  | NewScalar v =>
    have : NewScalar g v = g' := (Option.some.injEq _ _).mp h
    rw [← this]
    exact frameL_append _ _
  | NewOperator f ops => exact NewOperator_frame h
  | NewWrap v =>
    have : NewWrap g v = g' := (Option.some.injEq _ _).mp h
    rw [← this]
    exact frameL_append _ _
  | NewWrapNoGrad v =>
    have : NewWrapNoGrad g v = g' := (Option.some.injEq _ _).mp h
    rw [← this]
    exact frameL_append _ _

/-- C1: in every graph reachable by any sequence of constructor calls, for
every operator node and every node in its operand list, the level (depth)
recorded for the operator is strictly less than the level recorded for the
operand; since every point after the operator's construction is again a
reachable graph, the inequality holds at every such point, so processing
depth buckets in ascending order visits every consumer before its
operands. -/
theorem C1_operator_level_lt {V : Type} (g : Graph V) (hg : Reachable g)
    (i : Nat) (ni : nodeInfo V) (hni : g.nodes[i]? = some ni)
    (o : Nat) (ho : o ∈ ni.node.operandsOf) :
    ∃ no : nodeInfo V, g.nodes[o]? = some no ∧ ni.depth < no.depth := by
  have hInv := reachable_inv hg
  have hoi : o < i := hInv.ops_lt i ni hni o ho
  have hilen : i < g.nodes.length := lt_of_getElem?_eq_some hni
  have holen : o < g.nodes.length := by omega
  have hno : g.nodes[o]? = some g.nodes[o] := List.getElem?_eq_getElem holen
  refine ⟨g.nodes[o], hno, ?_⟩
  rw [hInv.depth_count i ni hni, hInv.depth_count o g.nodes[o] hno]
  have hop : ni.node.isOperator = true := by
    cases hnode : ni.node with
    | Operator _ _ _ _ => rfl
    | Variable _ _ _ =>
      rw [hnode] at ho
      simp [Node.operandsOf] at ho
    | Wrapper _ _ _ =>
      rw [hnode] at ho
      simp [Node.operandsOf] at ho
  have hodesci : o ∈ descOf g i := by
    rw [descOf_eq hni, ← List.mem_toFinset, hInv.desc_sets i ni hni]
    refine Finset.mem_insert.mpr (Or.inr (mem_unionDescendants.mpr ⟨o, ho, ?_⟩))
    rw [descOf_eq hno]
    exact hInv.self_mem o g.nodes[o] hno
  have hsub : consumers g i ⊆ consumers g o := by
    intro j hj
    obtain ⟨hjr, hjop, hjne, hjmem⟩ := Finset.mem_filter.mp hj
    have hjlen : j < g.nodes.length := Finset.mem_range.mp hjr
    have hnj : g.nodes[j]? = some g.nodes[j] := List.getElem?_eq_getElem hjlen
    have hij : i ≤ j := by
      have := hInv.desc_le j g.nodes[j] hnj i (by rwa [descOf_eq hnj] at hjmem)
      omega
    refine Finset.mem_filter.mpr ⟨hjr, hjop, by omega, ?_⟩
    rw [descOf_eq hnj]
    refine hInv.desc_closed j g.nodes[j] hnj i ?_ o hodesci
    rwa [descOf_eq hnj] at hjmem
  have hmemio : i ∈ consumers g o := by
    refine Finset.mem_filter.mpr ⟨Finset.mem_range.mpr hilen, ?_, by omega, hodesci⟩
    rw [isOperatorAt_eq hni]
    exact hop
  have hnoti : i ∉ consumers g i := by
    intro hmem
    exact (Finset.mem_filter.mp hmem).2.2.1 rfl
  exact Finset.card_lt_card
    ((Finset.ssubset_iff_of_subset hsub).mpr ⟨i, hmemio, hnoti⟩)

theorem C1_witness :
    ∃ no : nodeInfo Nat, diamondGraph.nodes[0]? = some no ∧
      (⟨Node.Operator 3 9 true [0, 2], 0, [0, 1, 2, 3]⟩ : nodeInfo Nat).depth <
        no.depth :=
  C1_operator_level_lt diamondGraph ⟨diamondInstrs, by decide⟩ 3
    ⟨Node.Operator 3 9 true [0, 2], 0, [0, 1, 2, 3]⟩ (by decide) 0 (by decide)

/-- C2: in every reachable graph, the level (depth) stored for a node `n`
equals the number of distinct operator nodes built so far that consume `n`
directly or transitively, i.e. such that `n` lies in the transitive
dependency closure of one of their operands; in the diamond
`c = f(a, b)`, `d = g(a, c)`, node `a` ends with level 2 and node `c` with
level 1 (see the witness). -/
theorem C2_level_counts_consumers {V : Type} (g : Graph V) (hg : Reachable g)
    (n : Nat) (ni : nodeInfo V) (hn : g.nodes[n]? = some ni) :
    ni.depth = (consumersSpec g n).card := by
  have hInv := reachable_inv hg
  rw [← consumers_eq_consumersSpec hInv n]
  exact hInv.depth_count n ni hn

theorem C2_witness :
    ((diamondGraph.nodes[0]?).map nodeInfo.depth = some 2) ∧
    ((diamondGraph.nodes[2]?).map nodeInfo.depth = some 1) ∧
    (⟨Node.Variable 0 5 true, 2, [0]⟩ : nodeInfo Nat).depth =
      (consumersSpec diamondGraph 0).card ∧
    (⟨Node.Operator 2 3 true [0, 1], 1, [0, 1, 2]⟩ : nodeInfo Nat).depth =
      (consumersSpec diamondGraph 2).card :=
  ⟨by decide, by decide,
    C2_level_counts_consumers diamondGraph ⟨diamondInstrs, by decide⟩ 0
      ⟨Node.Variable 0 5 true, 2, [0]⟩ (by decide),
    C2_level_counts_consumers diamondGraph ⟨diamondInstrs, by decide⟩ 2
      ⟨Node.Operator 2 3 true [0, 1], 1, [0, 1, 2]⟩ (by decide)⟩

/-- C4: for every reachable graph, the identities issued are exactly
`0, 1, ..., maxId - 1` in creation order: each record's payload carries the
identity equal to its arena index, and `nodes[i]` exists for every
`0 ≤ i < maxId` (with `maxId` equal to the arena length). -/
theorem C4_ids_dense {V : Type} (g : Graph V) (hg : Reachable g) :
    g.maxId = g.nodes.length ∧
    (∀ (i : Nat) (ni : nodeInfo V), g.nodes[i]? = some ni → ni.node.Id = i) ∧
    (∀ i, i < g.maxId → ∃ ni : nodeInfo V, g.nodes[i]? = some ni) := by
  have hInv := reachable_inv hg
  refine ⟨hInv.maxId_eq, hInv.id_eq, ?_⟩
  intro i hi
  rw [hInv.maxId_eq] at hi
  exact ⟨g.nodes[i], List.getElem?_eq_getElem hi⟩

theorem C4_witness :
    diamondGraph.maxId = diamondGraph.nodes.length ∧
    (∀ (i : Nat) (ni : nodeInfo Nat), diamondGraph.nodes[i]? = some ni →
      ni.node.Id = i) ∧
    (∀ i, i < diamondGraph.maxId →
      ∃ ni : nodeInfo Nat, diamondGraph.nodes[i]? = some ni) :=
  C4_ids_dense diamondGraph ⟨diamondInstrs, by decide⟩

/-- C10: in every reachable graph, the descendants list of the record at
arena index `i` contains `i`, has no duplicates, contains only identities
less than or equal to `i`, and is transitively closed: for every `j` in it,
the descendants of `j` are also in it. -/
theorem C10_descendants_inv {V : Type} (g : Graph V) (hg : Reachable g)
    (i : Nat) (ni : nodeInfo V) (hni : g.nodes[i]? = some ni) :
    i ∈ ni.descendants ∧ ni.descendants.Nodup ∧
    (∀ j ∈ ni.descendants, j ≤ i) ∧
    (∀ j ∈ ni.descendants, ∀ k ∈ descOf g j, k ∈ ni.descendants) := by
  have hInv := reachable_inv hg
  exact ⟨hInv.self_mem i ni hni, hInv.desc_nodup i ni hni,
    hInv.desc_le i ni hni, hInv.desc_closed i ni hni⟩

theorem C10_witness :
    3 ∈ ([0, 1, 2, 3] : List Nat) ∧ ([0, 1, 2, 3] : List Nat).Nodup ∧
    (∀ j ∈ ([0, 1, 2, 3] : List Nat), j ≤ 3) ∧
    (∀ j ∈ ([0, 1, 2, 3] : List Nat), ∀ k ∈ descOf diamondGraph j,
      k ∈ ([0, 1, 2, 3] : List Nat)) := by
  have h := C10_descendants_inv diamondGraph ⟨diamondInstrs, by decide⟩ 3
    ⟨Node.Operator 3 9 true [0, 2], 0, [0, 1, 2, 3]⟩ (by decide)
  exact h

/-- C3: postcondition of `NewOperator` given operands already in the
arena: the level of every identity in the de-duplicated union of the
operands' descendant sets is incremented by exactly 1 (once per
construction even when reachable through several operands), all other
records are unchanged, `maxDepth` becomes the maximum of itself and each
new level, and the appended record has descendant set equal to that union
plus the new identity, level 0, the kernel's eager forward result as its
value, and the logical OR of the operands' flags as `requiresGrad`. -/
theorem C3_NewOperator_post {V : Type} (g : Graph V) (hg : Reachable g)
    (f : Fn V) (ops : List Nat) (hops : ∀ o ∈ ops, o < g.nodes.length) :
    ∃ g' : Graph V, NewOperator g f ops = some g' ∧
      g'.maxId = g.maxId + 1 ∧
      g'.nodes.length = g.nodes.length + 1 ∧
      (∀ (i : Nat) (ni : nodeInfo V), g.nodes[i]? = some ni →
        g'.nodes[i]? = some ⟨ni.node,
          ni.depth + (if i ∈ unionDescendants g ops then 1 else 0),
          ni.descendants⟩) ∧
      g'.maxDepth = max g.maxDepth
        ((unionDescendants g ops).sup (fun i => depthAt g i + 1)) ∧
      ∃ rec : nodeInfo V, g'.nodes[g.nodes.length]? = some rec ∧
        rec.node = Node.Operator g.maxId f.forward
          (ops.any (fun o => requiresGradAt g o)) ops ∧
        rec.depth = 0 ∧ rec.descendants.Nodup ∧
        rec.descendants.toFinset = insert g.maxId (unionDescendants g ops) := by
  have hInv := reachable_inv hg
  obtain ⟨st, hsim, heq⟩ := NewOperator_char hInv f hops
  refine ⟨_, heq, rfl, ?_, ?_, ?_, ?_⟩
  · show (st.nodes ++ [_]).length = g.nodes.length + 1
    rw [List.length_append, List.length_singleton, hsim.len_nodes]
  · intro i ni hni
    show (st.nodes ++ [_])[i]? = _
    rw [List.getElem?_append_left
      (by rw [hsim.len_nodes]; exact lt_of_getElem?_eq_some hni)]
    exact hsim.nodes_at i ni hni
  · exact hsim.maxd
  · refine ⟨⟨Node.Operator (newId g) f.forward
        (ops.any (fun o => requiresGradAt g o)) ops,
        0, st.descendants ++ [newId g]⟩, ?_, rfl, rfl, ?_, ?_⟩
    · show (st.nodes ++ [_])[g.nodes.length]? = _
      rw [← hsim.len_nodes]
      exact List.getElem?_concat_length _ _
    · show (st.descendants ++ [newId g]).Nodup
      refine List.nodup_append.mpr
        ⟨hsim.desc_nodup, List.nodup_singleton _, ?_⟩
      intro a ha hb
      rcases List.mem_singleton.mp hb with rfl
      have haU : newId g ∈ unionDescendants g ops := by
        rw [← hsim.desc_set]
        exact List.mem_toFinset.mpr ha
      have h1 := hsim.sub _ haU
      have h2 : newId g = g.maxId := rfl
      have h3 := hInv.maxId_eq
      omega
    · show (st.descendants ++ [newId g]).toFinset =
        insert g.maxId (unionDescendants g ops)
      rw [List.toFinset_append, hsim.desc_set]
      ext x
      simp only [Finset.mem_union, Finset.mem_insert, List.toFinset_cons,
        List.toFinset_nil, insert_emptyc_eq, Finset.mem_singleton, newId]
      tauto

theorem C3_witness :
    ∃ g' : Graph Nat, NewOperator diamondGraph ⟨11⟩ [0, 2] = some g' ∧
      g'.maxId = diamondGraph.maxId + 1 ∧
      g'.nodes.length = diamondGraph.nodes.length + 1 ∧
      (∀ (i : Nat) (ni : nodeInfo Nat), diamondGraph.nodes[i]? = some ni →
        g'.nodes[i]? = some ⟨ni.node,
          ni.depth + (if i ∈ unionDescendants diamondGraph [0, 2] then 1 else 0),
          ni.descendants⟩) ∧
      g'.maxDepth = max diamondGraph.maxDepth
        ((unionDescendants diamondGraph [0, 2]).sup
          (fun i => depthAt diamondGraph i + 1)) ∧
      ∃ rec : nodeInfo Nat, g'.nodes[diamondGraph.nodes.length]? = some rec ∧
        rec.node = Node.Operator diamondGraph.maxId (⟨11⟩ : Fn Nat).forward
          ([0, 2].any (fun o => requiresGradAt diamondGraph o)) [0, 2] ∧
        rec.depth = 0 ∧ rec.descendants.Nodup ∧
        rec.descendants.toFinset =
          insert diamondGraph.maxId (unionDescendants diamondGraph [0, 2]) :=
  C3_NewOperator_post diamondGraph ⟨diamondInstrs, by decide⟩ ⟨11⟩ [0, 2]
    (by decide)

/-- C6: `Reset` restores the exact `NewGraph` state (empty arena, `maxId`
and `maxDepth` at their initial values), so replaying any construction
sequence after `Reset` yields the very same graph — node for node, with
identical identities and levels — as running it on a fresh graph; the
model of `Reset` constructs the zero state and never touches any value
owned outside the graph (the `GradValue`s referenced by wrappers are left
untouched). -/
theorem C6_reset_replay {V : Type} (g : Graph V) (is : List (Instr V)) :
    Reset g = NewGraph V ∧ run (Reset g) is = run (NewGraph V) is :=
  ⟨rfl, rfl⟩

/-- C7: constructing an operator whose operand list references an identity
not yet in the arena fails at that call (the model returns `none` exactly
where the Go code panics with an out-of-range index), and is never
silently absorbed; under the precondition that every operand identity is
already in the arena, the error branch is unreachable: the call returns a
graph. -/
theorem C7_invalid_operand {V : Type} (g : Graph V) (f : Fn V)
    (ops : List Nat) :
    ((∃ o ∈ ops, g.nodes.length ≤ o) → NewOperator g f ops = none) ∧
    (Reachable g → (∀ o ∈ ops, o < g.nodes.length) →
      ∃ g' : Graph V, NewOperator g f ops = some g') := by
  constructor
  · rintro ⟨o, ho, hge⟩
    rw [NewOperator, requireGrad_none ho hge]
    rfl
  · intro hg hops
    obtain ⟨st, _, heq⟩ := NewOperator_char (reachable_inv hg) f hops
    exact ⟨_, heq⟩

theorem C7_witness :
    NewOperator diamondGraph ⟨0⟩ [7] = none ∧
    (∃ g' : Graph Nat, NewOperator diamondGraph ⟨0⟩ [0, 1] = some g') :=
  ⟨(C7_invalid_operand diamondGraph ⟨0⟩ [7]).1 ⟨7, by decide, by decide⟩,
   (C7_invalid_operand diamondGraph ⟨0⟩ [0, 1]).2 ⟨diamondInstrs, by decide⟩
     (by decide)⟩

/-- C8: every constructor call mutates an existing record at most in its
depth (level) field and only by increasing it; the payload, the identity
it carries and the descendant list are never modified after creation, and
no record is ever removed by a constructor call — the record is still
present at its index afterwards. -/
theorem C8_frame {V : Type} (g g' : Graph V) (ins : Instr V)
    (h : step g ins = some g') (i : Nat) (ni : nodeInfo V)
    (hni : g.nodes[i]? = some ni) :
    ∃ ni' : nodeInfo V, g'.nodes[i]? = some ni' ∧ ni'.node = ni.node ∧
      ni'.descendants = ni.descendants ∧ ni.depth ≤ ni'.depth :=
  step_frame h i ni hni

theorem C8_witness :
    ∃ ni' : nodeInfo Nat,
      ((step diamondGraph (Instr.NewOperator ⟨4⟩ [0])).getD
          (NewGraph Nat)).nodes[2]? = some ni' ∧
      ni'.node = (⟨Node.Operator 2 3 true [0, 1], 1, [0, 1, 2]⟩ :
        nodeInfo Nat).node ∧
      ni'.descendants = (⟨Node.Operator 2 3 true [0, 1], 1, [0, 1, 2]⟩ :
        nodeInfo Nat).descendants ∧
      (⟨Node.Operator 2 3 true [0, 1], 1, [0, 1, 2]⟩ :
        nodeInfo Nat).depth ≤ ni'.depth :=
  C8_frame diamondGraph _ (Instr.NewOperator ⟨4⟩ [0]) (by decide) 2 _
    (by decide)

/-- C9: in every reachable graph `maxDepth` bounds the depth of every
record (it equals the maximum depth, or 0 for an empty graph), so
`groupNodesByDepth` never indexes its bucket slice out of range and
returns `maxDepth + 1` buckets partitioning the nodes: bucket `d` holds
exactly the nodes of depth `d`, in creation order. -/
theorem C9_buckets {V : Type} (g : Graph V) (hg : Reachable g) :
    (∀ (i : Nat) (ni : nodeInfo V), g.nodes[i]? = some ni →
      ni.depth ≤ g.maxDepth) ∧
    (g.nodes = [] → g.maxDepth = 0) ∧
    (g.nodes ≠ [] → ∃ (i : Nat) (ni : nodeInfo V), g.nodes[i]? = some ni ∧
      ni.depth = g.maxDepth) ∧
    ∃ bs : List (List (Node V)), groupNodesByDepth g = some bs ∧
      bs.length = g.maxDepth + 1 ∧
      ∀ d, d < g.maxDepth + 1 →
        bs[d]? =
          some ((g.nodes.filter (fun ni => ni.depth == d)).map nodeInfo.node) := by
  have hInv := reachable_inv hg
  refine ⟨hInv.depth_le, ?_, ?_, groupNodesByDepth_char hInv⟩
  · intro hnil
    rcases hInv.maxDepth_attained with h0 | ⟨i, ni, hni, _⟩
    · exact h0
    · rw [hnil] at hni
      simp at hni
  · intro hne
    rcases hInv.maxDepth_attained with h0 | ⟨i, ni, hni, hdep⟩
    · have hlen : 0 < g.nodes.length := List.length_pos.mpr hne
      refine ⟨0, g.nodes[0], List.getElem?_eq_getElem hlen, ?_⟩
      have := hInv.depth_le 0 g.nodes[0] (List.getElem?_eq_getElem hlen)
      omega
    · exact ⟨i, ni, hni, hdep⟩

theorem C9_witness :
    ∃ bs : List (List (Node Nat)),
      groupNodesByDepth diamondGraph = some bs ∧
      bs.length = diamondGraph.maxDepth + 1 ∧
      ∀ d, d < diamondGraph.maxDepth + 1 →
        bs[d]? =
          some ((diamondGraph.nodes.filter
            (fun ni => ni.depth == d)).map nodeInfo.node) :=
  (C9_buckets diamondGraph ⟨diamondInstrs, by decide⟩).2.2.2

/-- C5 (counterexample): on the three-node chain `x`, `y = f(x)`,
`z = g(y)` with identity kernels, running the spec-modelled backward pass
seeded with 1 and then again seeded with 1, without clearing gradients in
between, leaves leaf `x` with gradient 4, while a single backward run
seeded with `1 + 1` leaves it with gradient 2: operator buffers are not
cleared, so the second run double-counts the gradient still stored in the
intermediate operator. -/
theorem C5_counterexample :
    Backward chainGraph unitCoeff
        (Backward chainGraph unitCoeff zeroGrads 2 1) 2 1 0 ≠
      Backward chainGraph unitCoeff zeroGrads 2 (1 + 1) 0 := by
  decide

/-- C5 (amended): gradient seeding is additive: pushing seed `g1` and then
seed `g2` into the output node's buffer (two accumulating seed operations)
followed by a single backward sweep leaves every node with the same
gradient as a single backward run seeded with `g1 + g2`. -/
theorem C5_seed_additive {V : Type} (g : Graph V) (coeff : Nat → Nat → Int)
    (grads : Grads) (out : Nat) (g1 g2 : Int) :
    BackwardFrom g coeff (PropagateGrad (PropagateGrad grads out g1) out g2) =
      Backward g coeff grads out (g1 + g2) := by
  have hseed : PropagateGrad (PropagateGrad grads out g1) out g2 =
      PropagateGrad grads out (g1 + g2) := by
    funext i
    show (if i = out then
      some (((PropagateGrad grads out g1) out).getD 0 + g2)
    else (PropagateGrad grads out g1) i) =
    (if i = out then some ((grads out).getD 0 + (g1 + g2)) else grads i)
    by_cases hi : i = out
    · rw [if_pos hi, if_pos hi]
      show some (((if out = out then some ((grads out).getD 0 + g1)
        else grads out)).getD 0 + g2) = _
      rw [if_pos rfl, Option.getD_some, add_assoc]
    · rw [if_neg hi, if_neg hi]
      show (if i = out then some ((grads out).getD 0 + g1) else grads i) =
        grads i
      rw [if_neg hi]
  rw [Backward, hseed]

end Spago
